import Mathlib

/-!
Verification of the BlockingQueue design (src/BlockingQueue.h).

The development shallowly embeds the queue:

* Storage is a list of elements (front of the container at the head of the
  list for the FIFO variant; a bag of elements for the priority variant).
  The template parameter Queue of the C++ class becomes a record of the
  four container operations the class requires: push, front, pop, empty.
* The impl methods (push_impl, pop_impl, try_pop_impl, clear_impl,
  empty_impl) become pure functions on the storage list; the throw in
  try_pop_impl becomes an Except value, returned together with the
  (unchanged, on the error path) storage.
* The mutex together with the owner register (the owningThread atomic)
  becomes an explicit state machine whose steps are the public operations
  lock, try_lock (success and failure), unlock.
* Concurrent executions, which the single mutex serializes, become finite
  traces of atomic queue events; a step function runs a trace.
-/

namespace BlockingQueue

/-- The single recoverable error of the design: the std::out_of_range
thrown by try_pop_impl when the storage is empty. -/
inductive QueueError where
  | emptyQueue
deriving DecidableEq, Repr

/-- The container interface the BlockingQueue template requires of its
Queue parameter: push, front, pop, empty.  Storage contents are
represented by a list. front is Option-valued because calling front on an
empty standard container is undefined; for lawful containers it is some
exactly on nonempty storage. -/
structure StorageOps (α : Type) where
  pushS : α → List α → List α
  frontS : List α → Option α
  popS : List α → List α
  emptyS : List α → Bool

/-- std::queue, the default storage: push appends at the back, front and
pop act on the head of the list. -/
def fifoOps (α : Type) : StorageOps α where
  pushS x l := l ++ [x]
  frontS l := l.head?
  popS l := l.tail
  emptyS l := l.isEmpty

/-- std::priority_queue top (max element per the comparator), modelling the
standard container used by the priority variant. -/
def pq_top [LinearOrder α] : List α → Option α
  | [] => none
  | x :: xs =>
    match pq_top xs with
    | none => some x
    | some m => some (max x m)

/-- std::priority_queue pop: removes one occurrence of the top element. -/
def pq_pop [LinearOrder α] (l : List α) : List α :=
  match pq_top l with
  | some m => l.erase m
  | none => l

/-- PriorityQueueWrapper::front, the adaptation shim: it returns
PriorityQueue::top() (line 277 of the source). -/
def PriorityQueueWrapper_front [LinearOrder α] (l : List α) : Option α :=
  pq_top l

/-- Priority-ordered storage (BlockingPriorityQueue instantiation): a
std::priority_queue seen through PriorityQueueWrapper.  The list
represents the bag of stored elements. -/
def prioOps (α : Type) [LinearOrder α] : StorageOps α where
  pushS x l := x :: l
  frontS l := PriorityQueueWrapper_front l
  popS l := pq_pop l
  emptyS l := l.isEmpty

/-- push_impl(T const&): records whether the storage was empty, inserts,
and notifies one waiter iff it was empty.  The Bool component records
whether cv.notify_one() was called. -/
def push_impl_copy (ops : StorageOps α) (item : α) (l : List α) :
    List α × Bool :=
  let wasEmpty := ops.emptyS l
  (ops.pushS item l, wasEmpty)

/-- push_impl(T&&): identical body to the copy variant. -/
def push_impl_move (ops : StorageOps α) (item : α) (l : List α) :
    List α × Bool :=
  let wasEmpty := ops.emptyS l
  (ops.pushS item l, wasEmpty)

/-- try_pop_impl: if the storage is empty it throws (first component is the
error, storage unchanged); otherwise it removes and returns the front
element.  The second error branch is unreachable for lawful containers,
which yield a front element on nonempty storage. -/
def try_pop_impl (ops : StorageOps α) (l : List α) :
    Except QueueError α × List α :=
  if ops.emptyS l then (Except.error QueueError.emptyQueue, l)
  else
    match ops.frontS l with
    | some v => (Except.ok v, ops.popS l)
    | none => (Except.error QueueError.emptyQueue, l)

/-- pop_impl after its cv.wait has established that the storage is
nonempty: it simply delegates to try_pop_impl (the wait itself is modelled
at the trace level, where a pop event is enabled only on nonempty
storage). -/
def pop_impl (ops : StorageOps α) (l : List α) :
    Except QueueError α × List α :=
  try_pop_impl ops l

/-- empty_impl: q.empty(). -/
def empty_impl (ops : StorageOps α) (l : List α) : Bool :=
  ops.emptyS l

/-- clear_impl loop body, with explicit fuel bounding the number of
iterations of the while loop; while the storage is nonempty it calls
pop_impl and keeps the resulting storage. -/
def clear_impl_aux (ops : StorageOps α) : Nat → List α → List α
  | 0, l => l
  | Nat.succ n, l =>
    if ops.emptyS l then l else clear_impl_aux ops n (pop_impl ops l).2

/-- clear_impl: repeatedly removes the front element until the storage is
empty.  The length of the storage bounds the iteration count for any
container whose pop shrinks nonempty storage. -/
def clear_impl (ops : StorageOps α) (l : List α) : List α :=
  clear_impl_aux ops l.length l

/-- The container laws that both std::queue and the wrapped
std::priority_queue satisfy, stated on the list representation. -/
structure LawfulStorage (ops : StorageOps α) : Prop where
  empty_iff : ∀ l : List α, ops.emptyS l = true ↔ l = []
  front_isSome : ∀ l : List α, l ≠ [] → (ops.frontS l).isSome = true
  front_pop_perm : ∀ (l : List α) (x : α), ops.frontS l = some x →
    (l : Multiset α) = x ::ₘ (ops.popS l : Multiset α)
  push_perm : ∀ (x : α) (l : List α),
    (ops.pushS x l : Multiset α) = x ::ₘ (l : Multiset α)
  pop_shrinks : ∀ l : List α, l ≠ [] → (ops.popS l).length < l.length

theorem pq_top_isSome [LinearOrder α] (l : List α) (h : l ≠ []) :
    (pq_top l).isSome = true := by
  cases l with
  | nil => exact absurd rfl h
  | cons x xs =>
    simp only [pq_top]
    cases pq_top xs <;> simp

theorem pq_top_mem [LinearOrder α] (l : List α) (m : α)
    (h : pq_top l = some m) : m ∈ l := by
  induction l generalizing m with
  | nil => simp [pq_top] at h
  | cons x xs ih =>
    simp only [pq_top] at h
    cases hxs : pq_top xs with
    | none => rw [hxs] at h; simp at h; simp [h]
    | some k =>
      rw [hxs] at h
      simp only [Option.some.injEq] at h
      subst h
      rcases max_choice x k with hm | hm
      · rw [hm]; exact List.mem_cons_self x xs
      · rw [hm]; exact List.mem_cons_of_mem x (ih k hxs)

theorem pq_top_ge [LinearOrder α] (l : List α) (m : α)
    (h : pq_top l = some m) : ∀ y ∈ l, y ≤ m := by
  induction l generalizing m with
  | nil => simp
  | cons x xs ih =>
    simp only [pq_top] at h
    cases hxs : pq_top xs with
    | none =>
      rw [hxs] at h
      simp only [Option.some.injEq] at h
      subst h
      intro y hy
      cases xs with
      | nil => simp at hy; simp [hy]
      | cons a as => simp [pq_top] at hxs; cases hxs' : pq_top as <;>
          rw [hxs'] at hxs <;> simp at hxs
    | some k =>
      rw [hxs] at h
      simp only [Option.some.injEq] at h
      subst h
      intro y hy
      rcases List.mem_cons.mp hy with hy | hy
      · subst hy; exact le_max_left _ _
      · exact le_trans (ih k hxs y hy) (le_max_right _ _)

theorem lawful_fifo (α : Type) : LawfulStorage (fifoOps α) where
  empty_iff l := by cases l <;> simp [fifoOps]
  front_isSome l h := by cases l with
    | nil => exact absurd rfl h
    | cons x xs => simp [fifoOps]
  front_pop_perm l x h := by
    cases l with
    | nil => simp [fifoOps] at h
    | cons a as =>
      simp only [fifoOps, List.head?] at h
      cases h
      simp [fifoOps]
  push_perm x l := by
    simp [fifoOps]
  pop_shrinks l h := by cases l with
    | nil => exact absurd rfl h
    | cons a as => simp [fifoOps]

theorem lawful_prio (α : Type) [LinearOrder α] :
    LawfulStorage (prioOps α) where
  empty_iff l := by cases l <;> simp [prioOps]
  front_isSome l h := by
    simpa [prioOps, PriorityQueueWrapper_front] using pq_top_isSome l h
  front_pop_perm l x h := by
    simp only [prioOps, PriorityQueueWrapper_front] at h
    have hmem : x ∈ l := pq_top_mem l x h
    simp only [prioOps, pq_pop, h]
    calc (l : Multiset α) = ((x :: l.erase x : List α) : Multiset α) :=
          Multiset.coe_eq_coe.mpr (List.perm_cons_erase hmem)
      _ = x ::ₘ (l.erase x : Multiset α) := by simp
  push_perm x l := by simp [prioOps]
  pop_shrinks l h := by
    cases hl : pq_top l with
    | none =>
      have := pq_top_isSome l h
      rw [hl] at this
      simp at this
    | some m =>
      have hmem : m ∈ l := pq_top_mem l m hl
      simp only [prioOps, pq_pop, hl]
      have hlen := List.length_erase_of_mem hmem
      have hpos : 0 < l.length := List.length_pos.mpr h
      omega

/-!
The synchronization core: the mutex m together with the owner register
owningThread (an atomic thread id; the default-constructed id, held by no
thread, is modelled as none).  Thread identities are natural numbers.
The public lock surface is a state machine whose atomic steps are the
critical sections of lock(), try_lock() and unlock() from the source.
-/

/-- The synchronization state: which thread (if any) holds the mutex m,
and the value of the owningThread register. -/
structure LockState where
  mutexHolder : Option Nat
  owningThread : Option Nat
deriving DecidableEq, Repr

/-- A freshly constructed queue: mutex free, owningThread stores the
default thread id. -/
def initLock : LockState := ⟨none, none⟩

/-- The events of the lock surface: a completed lock(), a try_lock()
returning true, a try_lock() returning false, and an unlock(), each by a
given thread. -/
inductive LockEvent where
  | lockE (t : Nat)
  | tryLockOkE (t : Nat)
  | tryLockFailE (t : Nat)
  | unlockE (t : Nat)
deriving DecidableEq, Repr

/-- owns_lock(): owningThread.load() compared with the calling thread id
(source lines 182 186). -/
def owns_lock (t : Nat) (s : LockState) : Bool :=
  s.owningThread == some t

/-- One atomic step of the lock surface.  none means the event cannot
happen in state s: a lock() by t completes only when the mutex is free
(and then stores t into the register); try_lock() succeeds exactly when
the mutex is free, and records the caller only on success; unlock() is
constrained by the contract to the thread recorded as owner, and clears
the register before releasing the mutex. -/
def lockStep (s : LockState) : LockEvent → Option LockState
  | LockEvent.lockE t =>
    if s.mutexHolder = none then some ⟨some t, some t⟩ else none
  | LockEvent.tryLockOkE t =>
    if s.mutexHolder = none then some ⟨some t, some t⟩ else none
  | LockEvent.tryLockFailE _ =>
    if s.mutexHolder = none then none else some s
  | LockEvent.unlockE t =>
    if s.owningThread = some t then some ⟨none, none⟩ else none

/-- Runs a trace of lock events from a state. -/
def runLock : LockState → List LockEvent → Option LockState
  | s, [] => some s
  | s, e :: es =>
    match lockStep s e with
    | some s2 => runLock s2 es
    | none => none

theorem lockStep_reg_eq_holder (s s2 : LockState) (e : LockEvent)
    (hinv : s.owningThread = s.mutexHolder)
    (h : lockStep s e = some s2) : s2.owningThread = s2.mutexHolder := by
  cases e with
  | lockE t =>
    simp only [lockStep] at h
    split at h
    · cases h; rfl
    · cases h
  | tryLockOkE t =>
    simp only [lockStep] at h
    split at h
    · cases h; rfl
    · cases h
  | tryLockFailE t =>
    simp only [lockStep] at h
    split at h
    · cases h
    · cases h; exact hinv
  | unlockE t =>
    simp only [lockStep] at h
    split at h
    · cases h; rfl
    · cases h

theorem runLock_reg_eq_holder (evs : List LockEvent) (s s2 : LockState)
    (hinv : s.owningThread = s.mutexHolder)
    (h : runLock s evs = some s2) : s2.owningThread = s2.mutexHolder := by
  induction evs generalizing s with
  | nil => simp only [runLock] at h; cases h; exact hinv
  | cons e es ih =>
    simp only [runLock] at h
    cases hstep : lockStep s e with
    | none => rw [hstep] at h; cases h
    | some s1 =>
      rw [hstep] at h
      exact ih s1 (lockStep_reg_eq_holder s s1 e hinv hstep) h

/-!
The queue facade: a full queue state pairs the synchronization state with
the storage, and every public data operation goes through get_lock.
-/

/-- The full state of a BlockingQueue: synchronization state plus storage
contents. -/
structure QueueState (α : Type) where
  lockSt : LockState
  storage : List α
deriving DecidableEq, Repr

/-- get_lock (source lines 188 200): if the calling thread already owns
the lock the returned unique_lock is deferred (it neither locks nor
unlocks); otherwise it locks the queue and its destructor unlocks.  This
Bool records whether the operation will acquire (and later release). -/
def get_lock_acquires (t : Nat) (s : LockState) : Bool :=
  !(owns_lock t s)

/-- A public data operation run by thread t: get_lock, then the impl body
on the storage, then release through the unique_lock destructor exactly
when get_lock acquired.  The body returns its (possibly error) outcome
together with the storage it leaves behind, so an early throw is an error
outcome.  The result is none when the thread would block because another
thread holds the mutex. -/
def public_op (t : Nat) (s : QueueState α)
    (body : List α → Except QueueError β × List α) :
    Option (Except QueueError β × QueueState α) :=
  if owns_lock t s.lockSt then
    match body s.storage with
    | (r, q2) => some (r, ⟨s.lockSt, q2⟩)
  else
    match lockStep s.lockSt (LockEvent.lockE t) with
    | some ls2 =>
      match body s.storage with
      | (r, q2) =>
        match lockStep ls2 (LockEvent.unlockE t) with
        | some ls3 => some (r, ⟨ls3, q2⟩)
        | none => none
    | none => none

/-- push as a public operation (either variant; the storage effect and the
notify decision are those of push_impl, and push has no error outcome). -/
def push_full (ops : StorageOps α) (t : Nat) (s : QueueState α) (item : α) :
    Option (Except QueueError Unit × QueueState α) :=
  public_op t s (fun l => (Except.ok (), (push_impl_copy ops item l).1))

/-- try_pop as a public operation. -/
def try_pop_full (ops : StorageOps α) (t : Nat) (s : QueueState α) :
    Option (Except QueueError α × QueueState α) :=
  public_op t s (try_pop_impl ops)

/-- clear as a public operation. -/
def clear_full (ops : StorageOps α) (t : Nat) (s : QueueState α) :
    Option (Except QueueError Unit × QueueState α) :=
  public_op t s (fun l => (Except.ok (), clear_impl ops l))

/-!
Trace semantics of the data operations.  The single mutex serializes the
storage accesses of any set of concurrent producers and consumers, so an
execution is a finite sequence of atomic queue events; each event carries
the id of the thread performing it.  A pop event is a pop() call that has
completed: its wait finished, so it is enabled only on nonempty storage
and it returns the front element.
-/

/-- An atomic, completed queue data operation in a concurrent execution. -/
inductive QueueEvent (α : Type) where
  | pushE (t : Nat) (x : α)
  | popOkE (t : Nat) (x : α)
  | tryPopOkE (t : Nat) (x : α)
  | tryPopErrE (t : Nat)
deriving DecidableEq, Repr

/-- One atomic queue event applied to the storage, defined through the
impl functions.  none means the event cannot occur there: a completed
pop or successful try_pop requires the impl to return exactly the value
the event records, and a try_pop error requires empty storage. -/
def queueStep [DecidableEq α] (ops : StorageOps α) (l : List α) :
    QueueEvent α → Option (List α)
  | QueueEvent.pushE _ x => some (push_impl_copy ops x l).1
  | QueueEvent.popOkE _ x =>
    match pop_impl ops l with
    | (Except.ok v, l2) => if v = x then some l2 else none
    | (Except.error _, _) => none
  | QueueEvent.tryPopOkE _ x =>
    match try_pop_impl ops l with
    | (Except.ok v, l2) => if v = x then some l2 else none
    | (Except.error _, _) => none
  | QueueEvent.tryPopErrE _ =>
    match try_pop_impl ops l with
    | (Except.error _, l2) => some l2
    | (Except.ok _, _) => none

/-- Runs a trace of queue events over the storage. -/
def runQueue [DecidableEq α] (ops : StorageOps α) :
    List α → List (QueueEvent α) → Option (List α)
  | l, [] => some l
  | l, e :: es =>
    match queueStep ops l e with
    | some l2 => runQueue ops l2 es
    | none => none

/-- The sequence of values pushed over a trace, in trace order. -/
def pushedSeq : List (QueueEvent α) → List α
  | [] => []
  | QueueEvent.pushE _ x :: es => x :: pushedSeq es
  | _ :: es => pushedSeq es

/-- The sequence of values returned by completed pop() and successful
try_pop() calls over a trace, in trace order. -/
def poppedSeq : List (QueueEvent α) → List α
  | [] => []
  | QueueEvent.popOkE _ x :: es => x :: poppedSeq es
  | QueueEvent.tryPopOkE _ x :: es => x :: poppedSeq es
  | _ :: es => poppedSeq es

/-! Characterization of try_pop_impl outcomes. -/

theorem try_pop_impl_ok_elim (ops : StorageOps α) (l l2 : List α) (v : α)
    (h : try_pop_impl ops l = (Except.ok v, l2)) :
    ops.emptyS l = false ∧ ops.frontS l = some v ∧ l2 = ops.popS l := by
  simp only [try_pop_impl] at h
  split at h
  · cases h
  · rename_i hemp
    cases hf : ops.frontS l with
    | none => rw [hf] at h; cases h
    | some w =>
      rw [hf] at h
      cases h
      exact ⟨Bool.not_eq_true _ ▸ Bool.of_not_eq_true hemp, rfl, rfl⟩

theorem try_pop_impl_err_elim (ops : StorageOps α) (l l2 : List α)
    (e : QueueError) (h : try_pop_impl ops l = (Except.error e, l2)) :
    l2 = l := by
  simp only [try_pop_impl] at h
  split at h
  · cases h; rfl
  · cases hf : ops.frontS l with
    | none => rw [hf] at h; cases h; rfl
    | some w => rw [hf] at h; cases h

theorem try_pop_impl_of_cons (x : α) (xs : List α) :
    try_pop_impl (fifoOps α) (x :: xs) = (Except.ok x, xs) := by
  simp [try_pop_impl, fifoOps]

/-! The FIFO trace invariant: the storage front holds the oldest surviving
item, so at every point the initial storage followed by all pushed values
equals the popped values followed by the remaining storage, as sequences. -/

theorem runQueue_fifo_inv [DecidableEq α] (evs : List (QueueEvent α))
    (l0 lf : List α) (h : runQueue (fifoOps α) l0 evs = some lf) :
    l0 ++ pushedSeq evs = poppedSeq evs ++ lf := by
  induction evs generalizing l0 with
  | nil =>
    simp only [runQueue] at h
    cases h
    simp [pushedSeq, poppedSeq]
  | cons e es ih =>
    simp only [runQueue] at h
    cases e with
    | pushE t x =>
      have h2 : runQueue (fifoOps α) (l0 ++ [x]) es = some lf := h
      have hrec := ih (l0 ++ [x]) h2
      simp only [pushedSeq, poppedSeq]
      rw [List.append_assoc, List.singleton_append] at hrec
      exact hrec
    | popOkE t x =>
      cases l0 with
      | nil => exact absurd h (by simp [queueStep, pop_impl, try_pop_impl, fifoOps])
      | cons a as =>
        have h2 : (if a = x then runQueue (fifoOps α) as es else none)
            = some lf := by
          by_cases hax : a = x
          · rw [if_pos hax]
            simpa [queueStep, pop_impl, try_pop_impl_of_cons, hax] using h
          · exact absurd h (by simp [queueStep, pop_impl, try_pop_impl_of_cons, hax])
        by_cases hax : a = x
        · subst hax
          rw [if_pos rfl] at h2
          have hrec := ih as h2
          simp only [pushedSeq, poppedSeq, List.cons_append, hrec]
        · rw [if_neg hax] at h2; cases h2
    | tryPopOkE t x =>
      cases l0 with
      | nil => exact absurd h (by simp [queueStep, try_pop_impl, fifoOps])
      | cons a as =>
        have h2 : (if a = x then runQueue (fifoOps α) as es else none)
            = some lf := by
          by_cases hax : a = x
          · rw [if_pos hax]
            simpa [queueStep, try_pop_impl_of_cons, hax] using h
          · exact absurd h (by simp [queueStep, try_pop_impl_of_cons, hax])
        by_cases hax : a = x
        · subst hax
          rw [if_pos rfl] at h2
          have hrec := ih as h2
          simp only [pushedSeq, poppedSeq, List.cons_append, hrec]
        · rw [if_neg hax] at h2; cases h2
    | tryPopErrE t =>
      cases l0 with
      | nil =>
        have h2 : runQueue (fifoOps α) [] es = some lf := h
        have hrec := ih [] h2
        simpa [pushedSeq, poppedSeq] using hrec
      | cons a as =>
        exact absurd h (by simp [queueStep, try_pop_impl_of_cons])

/-! The generic conservation invariant, for any lawful storage: as
multisets, initial storage plus pushed values equals popped values plus
remaining storage. -/

theorem runQueue_conservation [DecidableEq α] (ops : StorageOps α)
    (hl : LawfulStorage ops) (evs : List (QueueEvent α)) (l0 lf : List α)
    (h : runQueue ops l0 evs = some lf) :
    (l0 : Multiset α) + (pushedSeq evs : Multiset α) =
      (poppedSeq evs : Multiset α) + (lf : Multiset α) := by
  induction evs generalizing l0 with
  | nil =>
    simp only [runQueue] at h
    cases h
    simp [pushedSeq, poppedSeq]
  | cons e es ih =>
    simp only [runQueue] at h
    cases e with
    | pushE t x =>
      have h2 : runQueue ops (ops.pushS x l0) es = some lf := h
      have hrec := ih (ops.pushS x l0) h2
      rw [hl.push_perm x l0, Multiset.cons_add] at hrec
      simp only [pushedSeq, poppedSeq]
      rw [← Multiset.cons_coe, Multiset.add_cons]
      exact hrec
    | popOkE t x =>
      rcases htp : try_pop_impl ops l0 with ⟨r, l2⟩
      cases r with
      | error e2 =>
        simp [queueStep, pop_impl, htp] at h
      | ok v =>
        have h2 : (if v = x then runQueue ops l2 es else none) = some lf := by
          by_cases hvx : v = x
          · rw [if_pos hvx]
            simpa [queueStep, pop_impl, htp, hvx] using h
          · simp [queueStep, pop_impl, htp, hvx] at h
        by_cases hvx : v = x
        · subst hvx
          rw [if_pos rfl] at h2
          obtain ⟨hemp, hfront, hl2⟩ := try_pop_impl_ok_elim ops l0 l2 v htp
          have hperm := hl.front_pop_perm l0 v hfront
          have hrec := ih l2 h2
          simp only [pushedSeq, poppedSeq]
          rw [hperm, ← hl2, Multiset.cons_add, hrec, ← Multiset.cons_coe,
            Multiset.cons_add]
        · rw [if_neg hvx] at h2; cases h2
    | tryPopOkE t x =>
      rcases htp : try_pop_impl ops l0 with ⟨r, l2⟩
      cases r with
      | error e2 =>
        simp [queueStep, htp] at h
      | ok v =>
        have h2 : (if v = x then runQueue ops l2 es else none) = some lf := by
          by_cases hvx : v = x
          · rw [if_pos hvx]
            simpa [queueStep, htp, hvx] using h
          · simp [queueStep, htp, hvx] at h
        by_cases hvx : v = x
        · subst hvx
          rw [if_pos rfl] at h2
          obtain ⟨hemp, hfront, hl2⟩ := try_pop_impl_ok_elim ops l0 l2 v htp
          have hperm := hl.front_pop_perm l0 v hfront
          have hrec := ih l2 h2
          simp only [pushedSeq, poppedSeq]
          rw [hperm, ← hl2, Multiset.cons_add, hrec, ← Multiset.cons_coe,
            Multiset.cons_add]
        · rw [if_neg hvx] at h2; cases h2
    | tryPopErrE t =>
      rcases htp : try_pop_impl ops l0 with ⟨r, l2⟩
      cases r with
      | ok v =>
        simp [queueStep, htp] at h
      | error e2 =>
        have hl2 := try_pop_impl_err_elim ops l0 l2 e2 htp
        have h2 : runQueue ops l2 es = some lf := by
          simpa [queueStep, htp] using h
        rw [hl2] at h2
        have hrec := ih l0 h2
        simpa [pushedSeq, poppedSeq] using hrec

/-! Further helper lemmas shared by the claim theorems. -/

theorem lawful_emptyS_false (ops : StorageOps α) (hl : LawfulStorage ops)
    (l : List α) (h : l ≠ []) : ops.emptyS l = false := by
  cases hb : ops.emptyS l with
  | false => rfl
  | true => exact absurd ((hl.empty_iff l).mp hb) h

theorem try_pop_impl_ok_of_ne (ops : StorageOps α) (hl : LawfulStorage ops)
    (l : List α) (h : l ≠ []) :
    ∃ v, ops.frontS l = some v ∧
      try_pop_impl ops l = (Except.ok v, ops.popS l) := by
  obtain ⟨v, hv⟩ := Option.isSome_iff_exists.mp (hl.front_isSome l h)
  exact ⟨v, hv, by simp [try_pop_impl, lawful_emptyS_false ops hl l h, hv]⟩

theorem clear_impl_aux_eq_nil (ops : StorageOps α) (hl : LawfulStorage ops) :
    ∀ (n : Nat) (l : List α), l.length ≤ n → clear_impl_aux ops n l = [] := by
  intro n
  induction n with
  | zero =>
    intro l hlen
    cases l with
    | nil => rfl
    | cons a as => simp at hlen
  | succ n ih =>
    intro l hlen
    by_cases hemp : ops.emptyS l = true
    · have hl0 := (hl.empty_iff l).mp hemp
      subst hl0
      simp [clear_impl_aux, hemp]
    · have hne : l ≠ [] := fun h0 => hemp ((hl.empty_iff l).mpr h0)
      obtain ⟨v, hv, htp⟩ := try_pop_impl_ok_of_ne ops hl l hne
      have hpop2 : (pop_impl ops l).2 = ops.popS l := by
        simp [pop_impl, htp]
      have hshort := hl.pop_shrinks l hne
      simp only [clear_impl_aux, if_neg hemp, hpop2]
      exact ih (ops.popS l) (by omega)

theorem clear_impl_eq_nil (ops : StorageOps α) (hl : LawfulStorage ops)
    (l : List α) : clear_impl ops l = [] :=
  clear_impl_aux_eq_nil ops hl l.length l le_rfl

/-- empty as a public operation (it has no error outcome). -/
def empty_full (ops : StorageOps α) (t : Nat) (s : QueueState α) :
    Option (Except QueueError Bool × QueueState α) :=
  public_op t s (fun l => (Except.ok (empty_impl ops l), l))

theorem public_op_ok_body (t : Nat) (s : QueueState α)
    (body : List α → Except QueueError β × List α)
    (hbody : ∀ l, ∃ v, (body l).1 = Except.ok v)
    (r : Except QueueError β × QueueState α)
    (h : public_op t s body = some r) : ∃ v, r.1 = Except.ok v := by
  obtain ⟨v, hv⟩ := hbody s.storage
  simp only [public_op] at h
  split at h
  · rcases hb : body s.storage with ⟨r1, q2⟩
    rw [hb] at h hv
    cases h
    exact ⟨v, hv⟩
  · cases hls : lockStep s.lockSt (LockEvent.lockE t) with
    | none => rw [hls] at h; cases h
    | some ls2 =>
      rw [hls] at h
      rcases hb : body s.storage with ⟨r1, q2⟩
      rw [hb] at h hv
      have h2 : (match lockStep ls2 (LockEvent.unlockE t) with
          | some ls3 =>
            some ((r1, q2).1, (⟨ls3, (r1, q2).2⟩ : QueueState α))
          | none => none) = some r := h
      cases hls2 : lockStep ls2 (LockEvent.unlockE t) with
      | none => rw [hls2] at h2; cases h2
      | some ls3 =>
        rw [hls2] at h2
        cases h2
        exact ⟨v, hv⟩

/-! The claim theorems. -/

/-- C1: In FIFO mode, for a single producer pushing items in order
i1, ..., iN and a consumer popping N times, the pops return exactly
i1, ..., iN in that order: in any trace that pushes the sequence xs (in
trace order, which is the program order of a single producer) and whose
completed pops number exactly as many as the pushes, the sequence of
popped values equals xs and the storage ends empty. -/
theorem C1_fifo_order [DecidableEq α] (evs : List (QueueEvent α))
    (xs lf : List α)
    (hrun : runQueue (fifoOps α) [] evs = some lf)
    (hpush : pushedSeq evs = xs)
    (hlen : (poppedSeq evs).length = xs.length) :
    poppedSeq evs = xs ∧ lf = [] := by
  have hinv := runQueue_fifo_inv evs [] lf hrun
  rw [List.nil_append, hpush] at hinv
  have hlens := congrArg List.length hinv
  rw [List.length_append, hlen] at hlens
  have hlf : lf = [] := List.length_eq_zero.mp (by omega)
  subst hlf
  rw [List.append_nil] at hinv
  exact ⟨hinv.symm, rfl⟩

/-- Witness for C1: producer thread 0 pushes 10, 20, 30 interleaved with
consumer thread 1 popping three times; the pops return 10, 20, 30. -/
theorem C1_fifo_order_witness :
    runQueue (fifoOps Nat) []
      [QueueEvent.pushE 0 10, QueueEvent.pushE 0 20, QueueEvent.popOkE 1 10,
        QueueEvent.pushE 0 30, QueueEvent.popOkE 1 20, QueueEvent.popOkE 1 30]
      = some [] ∧
    poppedSeq
      [QueueEvent.pushE 0 10, QueueEvent.pushE 0 20, QueueEvent.popOkE 1 10,
        QueueEvent.pushE 0 30, QueueEvent.popOkE 1 20, QueueEvent.popOkE 1 30]
      = [10, 20, 30] :=
  ⟨by decide,
    (C1_fifo_order
      ([QueueEvent.pushE 0 10, QueueEvent.pushE 0 20, QueueEvent.popOkE 1 10,
        QueueEvent.pushE 0 30, QueueEvent.popOkE 1 20, QueueEvent.popOkE 1 30]
        : List (QueueEvent Nat))
      [10, 20, 30] [] (by decide) (by decide) (by decide)).1⟩

/-- C2: try_pop raises EmptyQueue iff the storage is empty at call time;
on nonempty storage it removes and returns the front element (for FIFO
storage the head, for priority storage a maximal element); and no other
public operation (push, clear, empty) has an error outcome. -/
theorem C2_try_pop_error_iff_empty [LinearOrder α] (l : List α) :
    ((try_pop_impl (fifoOps α) l).1 = Except.error QueueError.emptyQueue
      ↔ l = []) ∧
    ((try_pop_impl (prioOps α) l).1 = Except.error QueueError.emptyQueue
      ↔ l = []) ∧
    (∀ x xs, l = x :: xs → try_pop_impl (fifoOps α) l = (Except.ok x, xs)) ∧
    (l ≠ [] → ∃ m, try_pop_impl (prioOps α) l = (Except.ok m, l.erase m)) ∧
    (∀ (ops : StorageOps α) (t : Nat) (s : QueueState α) (item : α) r,
      push_full ops t s item = some r → ∃ v, r.1 = Except.ok v) ∧
    (∀ (ops : StorageOps α) (t : Nat) (s : QueueState α) r,
      clear_full ops t s = some r → ∃ v, r.1 = Except.ok v) ∧
    (∀ (ops : StorageOps α) (t : Nat) (s : QueueState α) r,
      empty_full ops t s = some r → ∃ v, r.1 = Except.ok v) := by
  refine ⟨?_, ?_, ?_, ?_, ?_, ?_, ?_⟩
  · constructor
    · intro h
      cases l with
      | nil => rfl
      | cons a as => rw [try_pop_impl_of_cons] at h; cases h
    · intro h; subst h; simp [try_pop_impl, fifoOps]
  · constructor
    · intro h
      cases hl : l with
      | nil => rfl
      | cons a as =>
        obtain ⟨v, hv, htp⟩ :=
          try_pop_impl_ok_of_ne (prioOps α) (lawful_prio α) l (by simp [hl])
        rw [htp] at h
        cases h
    · intro h; subst h; simp [try_pop_impl, prioOps]
  · intro x xs h; subst h; exact try_pop_impl_of_cons x xs
  · intro h
    obtain ⟨v, hv, htp⟩ :=
      try_pop_impl_ok_of_ne (prioOps α) (lawful_prio α) l h
    refine ⟨v, ?_⟩
    rw [htp]
    have : (prioOps α).popS l = l.erase v := by
      simp only [prioOps, pq_pop]
      simp only [prioOps, PriorityQueueWrapper_front] at hv
      rw [hv]
    rw [this]
  · intro ops t s item r h
    exact public_op_ok_body t s _ (fun l2 => ⟨(), rfl⟩) r h
  · intro ops t s r h
    exact public_op_ok_body t s _ (fun l2 => ⟨(), rfl⟩) r h
  · intro ops t s r h
    exact public_op_ok_body t s _ (fun l2 => ⟨empty_impl ops l2, rfl⟩) r h

/-- Witness for C2: on storage 3 :: 5 :: 4 :: nil the FIFO try_pop
returns the head 3, the priority try_pop returns a maximal element, and
on empty FIFO storage try_pop raises EmptyQueue. -/
theorem C2_try_pop_error_iff_empty_witness :
    ((try_pop_impl (fifoOps Nat) []).1
      = Except.error QueueError.emptyQueue) ∧
    try_pop_impl (fifoOps Nat) [3, 5, 4] = (Except.ok 3, [5, 4]) ∧
    (∃ m, try_pop_impl (prioOps Nat) [3, 5, 4]
      = (Except.ok m, [3, 5, 4].erase m)) :=
  ⟨(C2_try_pop_error_iff_empty ([] : List Nat)).1.mpr rfl,
    (C2_try_pop_error_iff_empty [3, 5, 4]).2.2.1 3 [5, 4] rfl,
    (C2_try_pop_error_iff_empty [3, 5, 4]).2.2.2.1 (by simp)⟩

/-- C3: pop never fails: once past its wait the storage is nonempty, and
then try_pop_impl (to which pop_impl delegates) takes its success branch,
removing and returning the front element; the EmptyQueue branch is
unreachable from pop. -/
theorem C3_pop_never_fails [LinearOrder α] (l : List α) (h : l ≠ []) :
    (∃ v, (pop_impl (fifoOps α) l).1 = Except.ok v) ∧
    (∃ v, (pop_impl (prioOps α) l).1 = Except.ok v) ∧
    (∀ x xs, l = x :: xs → pop_impl (fifoOps α) l = (Except.ok x, xs)) := by
  refine ⟨?_, ?_, ?_⟩
  · obtain ⟨v, hv, htp⟩ :=
      try_pop_impl_ok_of_ne (fifoOps α) (lawful_fifo α) l h
    exact ⟨v, by simp [pop_impl, htp]⟩
  · obtain ⟨v, hv, htp⟩ :=
      try_pop_impl_ok_of_ne (prioOps α) (lawful_prio α) l h
    exact ⟨v, by simp [pop_impl, htp]⟩
  · intro x xs hx
    subst hx
    simp only [pop_impl]
    exact try_pop_impl_of_cons x xs

/-- Witness for C3: on storage 2 :: 7 :: 5 :: nil, pop succeeds and the
FIFO pop returns the front element 2. -/
theorem C3_pop_never_fails_witness :
    ([2, 7, 5] ≠ ([] : List Nat)) ∧
    pop_impl (fifoOps Nat) [2, 7, 5] = (Except.ok 2, [7, 5]) :=
  ⟨by simp,
    (C3_pop_never_fails [2, 7, 5] (by simp)).2.2 2 [7, 5] rfl⟩

/-- C4: both push_impl variants record whether the storage was empty
before the insertion and signal (the Bool component, the notify_one call)
exactly when it was; a push into nonempty storage performs no wake, and
the copy push appends at the back of FIFO storage. -/
theorem C4_push_signals_iff_was_empty [LinearOrder α] (x : α) (l : List α) :
    ((push_impl_copy (fifoOps α) x l).2 = (fifoOps α).emptyS l) ∧
    ((push_impl_move (fifoOps α) x l).2 = (fifoOps α).emptyS l) ∧
    ((push_impl_copy (fifoOps α) x l).2 = true ↔ l = []) ∧
    ((push_impl_move (fifoOps α) x l).2 = true ↔ l = []) ∧
    ((push_impl_copy (prioOps α) x l).2 = true ↔ l = []) ∧
    ((push_impl_move (prioOps α) x l).2 = true ↔ l = []) ∧
    ((push_impl_copy (fifoOps α) x l).1 = l ++ [x]) := by
  refine ⟨rfl, rfl, ?_, ?_, ?_, ?_, rfl⟩ <;>
    simp [push_impl_copy, push_impl_move, fifoOps, prioOps,
      List.isEmpty_iff]

/-- Witness for C4: a push onto empty storage signals; a push onto the
nonempty storage 2 :: nil does not. -/
theorem C4_push_signals_iff_was_empty_witness :
    (push_impl_copy (fifoOps Nat) 1 []).2 = true ∧
    ¬(push_impl_copy (fifoOps Nat) 1 [2]).2 = true :=
  ⟨(C4_push_signals_iff_was_empty 1 ([] : List Nat)).2.2.1.mpr rfl,
    fun h => by
      have h2 := (C4_push_signals_iff_was_empty 1 [2]).2.2.1.mp h
      simp at h2⟩

/-- C5: the owner-register state machine invariant: in every state
reachable from the initial state, the register holds exactly the identity
of the thread holding the mutex (OwnedBy(T) iff T holds the lock),
owns_lock answers true exactly for that thread and false for every other
thread, and the only transitions are Unowned to OwnedBy via lock or a
successful try_lock (a failed try_lock records nothing) and OwnedBy to
Unowned via unlock. -/
theorem C5_owner_register (evs : List LockEvent) (s : LockState)
    (h : runLock initLock evs = some s) :
    s.owningThread = s.mutexHolder ∧
    (∀ t, owns_lock t s = true ↔ s.mutexHolder = some t) ∧
    (∀ t u, owns_lock t s = true → owns_lock u s = true → t = u) ∧
    (∀ s1 s2 t, lockStep s1 (LockEvent.lockE t) = some s2 →
      s1.mutexHolder = none ∧ s2 = ⟨some t, some t⟩) ∧
    (∀ s1 s2 t, lockStep s1 (LockEvent.tryLockOkE t) = some s2 →
      s1.mutexHolder = none ∧ s2 = ⟨some t, some t⟩) ∧
    (∀ s1 s2 t, lockStep s1 (LockEvent.tryLockFailE t) = some s2 →
      s2 = s1) ∧
    (∀ s1 s2 t, lockStep s1 (LockEvent.unlockE t) = some s2 →
      s1.owningThread = some t ∧ s2 = ⟨none, none⟩) := by
  have hreg := runLock_reg_eq_holder evs initLock s rfl h
  refine ⟨hreg, ?_, ?_, ?_, ?_, ?_, ?_⟩
  · intro t
    simp [owns_lock, hreg]
  · intro t u ht hu
    simp only [owns_lock, beq_iff_eq] at ht hu
    exact Option.some.inj (ht.symm.trans hu)
  · intro s1 s2 t hstep
    simp only [lockStep] at hstep
    split at hstep
    · rename_i hn; cases hstep; exact ⟨hn, rfl⟩
    · cases hstep
  · intro s1 s2 t hstep
    simp only [lockStep] at hstep
    split at hstep
    · rename_i hn; cases hstep; exact ⟨hn, rfl⟩
    · cases hstep
  · intro s1 s2 t hstep
    simp only [lockStep] at hstep
    split at hstep
    · cases hstep
    · cases hstep; rfl
  · intro s1 s2 t hstep
    simp only [lockStep] at hstep
    split at hstep
    · rename_i hn; cases hstep; exact ⟨hn, rfl⟩
    · cases hstep

/-- Witness for C5: thread 0 locks and unlocks, then thread 1 succeeds in
try_lock; in the resulting state thread 1 owns the lock and thread 0 does
not. -/
theorem C5_owner_register_witness :
    runLock initLock
      [LockEvent.lockE 0, LockEvent.unlockE 0, LockEvent.tryLockOkE 1]
      = some ⟨some 1, some 1⟩ ∧
    owns_lock 1 ⟨some 1, some 1⟩ = true ∧
    owns_lock 0 ⟨some 1, some 1⟩ = false := by
  refine ⟨by decide, ?_, by decide⟩
  exact ((C5_owner_register
    [LockEvent.lockE 0, LockEvent.unlockE 0, LockEvent.tryLockOkE 1]
    ⟨some 1, some 1⟩ (by decide)).2.1 1).mpr rfl

/-- C6: the reentrancy rule of every public data operation: get_lock
first checks owns_lock; if the calling thread already owns the lock the
operation runs directly on the storage and neither acquires nor releases
(the synchronization state is untouched); if not, it acquires the lock
(becoming the owner for the duration of the body) and the unique_lock
destructor releases it on every exit path, whatever outcome the body has,
including an error outcome; a third thread holding the lock makes the
caller block instead. -/
theorem C6_reentrancy (t : Nat) (s : QueueState α)
    (body : List α → Except QueueError β × List α) :
    (owns_lock t s.lockSt = true →
      public_op t s body
        = some ((body s.storage).1, ⟨s.lockSt, (body s.storage).2⟩)) ∧
    (owns_lock t s.lockSt = false → s.lockSt.mutexHolder = none →
      lockStep s.lockSt (LockEvent.lockE t) = some ⟨some t, some t⟩ ∧
      lockStep ⟨some t, some t⟩ (LockEvent.unlockE t) = some ⟨none, none⟩ ∧
      public_op t s body
        = some ((body s.storage).1, ⟨⟨none, none⟩, (body s.storage).2⟩)) ∧
    (owns_lock t s.lockSt = false → s.lockSt.mutexHolder ≠ none →
      public_op t s body = none) := by
  refine ⟨?_, ?_, ?_⟩
  · intro h
    rcases hb : body s.storage with ⟨r1, q2⟩
    simp [public_op, h, hb]
  · intro h hnone
    have hlock : lockStep s.lockSt (LockEvent.lockE t)
        = some ⟨some t, some t⟩ := by simp [lockStep, hnone]
    have hunlock : lockStep ⟨some t, some t⟩ (LockEvent.unlockE t)
        = some ⟨none, none⟩ := by simp [lockStep]
    rcases hb : body s.storage with ⟨r1, q2⟩
    exact ⟨hlock, hunlock, by simp [public_op, h, hlock, hunlock, hb]⟩
  · intro h hne
    cases hh : s.lockSt.mutexHolder with
    | none => exact absurd hh hne
    | some u =>
      simp [public_op, h, lockStep, hh]

/-- Witness for C6: with the lock free, thread 0 running try_pop on
storage 4 :: nil acquires and releases around the successful removal; on
empty storage it acquires and releases around the error outcome, leaving
the lock free both times. -/
theorem C6_reentrancy_witness :
    owns_lock 0 initLock = false ∧
    initLock.mutexHolder = none ∧
    public_op 0 (⟨initLock, [4]⟩ : QueueState Nat)
      (try_pop_impl (fifoOps Nat))
      = some (Except.ok 4, ⟨⟨none, none⟩, []⟩) ∧
    public_op 0 (⟨initLock, []⟩ : QueueState Nat)
      (try_pop_impl (fifoOps Nat))
      = some (Except.error QueueError.emptyQueue, ⟨⟨none, none⟩, []⟩) := by
  refine ⟨rfl, rfl, ?_, ?_⟩
  · exact ((C6_reentrancy 0 (⟨initLock, [4]⟩ : QueueState Nat)
      (try_pop_impl (fifoOps Nat))).2.1 rfl rfl).2.2
  · exact ((C6_reentrancy 0 (⟨initLock, []⟩ : QueueState Nat)
      (try_pop_impl (fifoOps Nat))).2.1 rfl rfl).2.2

/-- C7: conservation: over any serialized trace of pushes and completed
pops by any threads, the multiset of values pushed equals the multiset of
values returned by successful pop and try_pop calls plus whatever remains
in storage; in particular, when the storage ends empty the two multisets
are equal, so each pushed item is delivered exactly once, with no
duplication and no loss.  The theorem holds for any lawful storage, hence
for both the FIFO and the priority instantiation. -/
theorem C7_conservation [DecidableEq α] (ops : StorageOps α)
    (hl : LawfulStorage ops) (evs : List (QueueEvent α)) (lf : List α)
    (h : runQueue ops [] evs = some lf) :
    (pushedSeq evs : Multiset α)
      = (poppedSeq evs : Multiset α) + (lf : Multiset α) ∧
    (lf = [] →
      (pushedSeq evs : Multiset α) = (poppedSeq evs : Multiset α)) := by
  have hinv := runQueue_conservation ops hl evs [] lf h
  rw [Multiset.coe_nil, zero_add] at hinv
  refine ⟨hinv, fun hlf => ?_⟩
  subst hlf
  rw [Multiset.coe_nil, add_zero] at hinv
  exact hinv

/-- Witness for C7: producers 1 and 2 interleave pushes of 4, 9, 6 with
pops by consumers 3 and 4; the popped multiset equals the pushed
multiset. -/
theorem C7_conservation_witness :
    runQueue (fifoOps Nat) []
      [QueueEvent.pushE 1 4, QueueEvent.pushE 2 9, QueueEvent.popOkE 3 4,
        QueueEvent.pushE 1 6, QueueEvent.tryPopOkE 4 9, QueueEvent.popOkE 3 6]
      = some [] ∧
    (pushedSeq
      [QueueEvent.pushE 1 4, QueueEvent.pushE 2 9, QueueEvent.popOkE 3 4,
        QueueEvent.pushE 1 6, QueueEvent.tryPopOkE 4 9, QueueEvent.popOkE 3 6]
      : Multiset Nat)
      = (poppedSeq
      [QueueEvent.pushE 1 4, QueueEvent.pushE 2 9, QueueEvent.popOkE 3 4,
        QueueEvent.pushE 1 6, QueueEvent.tryPopOkE 4 9, QueueEvent.popOkE 3 6]
      : Multiset Nat) := by
  refine ⟨by decide, ?_⟩
  exact (C7_conservation (fifoOps Nat) (lawful_fifo Nat)
    [QueueEvent.pushE 1 4, QueueEvent.pushE 2 9, QueueEvent.popOkE 3 4,
      QueueEvent.pushE 1 6, QueueEvent.tryPopOkE 4 9, QueueEvent.popOkE 3 6]
    [] (by decide)).2 rfl

/-- C8: clear repeatedly removes the front element until the storage is
empty, so the storage after clear is empty (an immediately following
empty() returns true), for both the FIFO and the priority storage; and
clear does not affect later pushes: a push after clear produces exactly
the one-element storage. -/
theorem C8_clear [LinearOrder α] (l : List α) (x : α) :
    clear_impl (fifoOps α) l = [] ∧
    clear_impl (prioOps α) l = [] ∧
    empty_impl (fifoOps α) (clear_impl (fifoOps α) l) = true ∧
    empty_impl (prioOps α) (clear_impl (prioOps α) l) = true ∧
    (push_impl_copy (fifoOps α) x (clear_impl (fifoOps α) l)).1 = [x] ∧
    (push_impl_copy (prioOps α) x (clear_impl (prioOps α) l)).1 = [x] := by
  have h1 := clear_impl_eq_nil (fifoOps α) (lawful_fifo α) l
  have h2 := clear_impl_eq_nil (prioOps α) (lawful_prio α) l
  refine ⟨h1, h2, ?_, ?_, ?_, ?_⟩
  · rw [h1]; rfl
  · rw [h2]; rfl
  · rw [h1]; rfl
  · rw [h2]; rfl

/-- Witness for C8: clearing 1 :: 2 :: 3 :: nil empties the storage and a
following empty() is true. -/
theorem C8_clear_witness :
    clear_impl (fifoOps Nat) [1, 2, 3] = [] ∧
    empty_impl (fifoOps Nat) (clear_impl (fifoOps Nat) [1, 2, 3]) = true :=
  ⟨(C8_clear [1, 2, 3] 0).1, (C8_clear [1, 2, 3] 0).2.2.1⟩

/-- C9: in priority mode the adaptation shim's front returns top(), the
maximum element of the current contents per the comparator, without
mutating the storage (it is a pure function of the contents); hence
pop and try_pop on a BlockingPriorityQueue remove and return the current
maximum. -/
theorem C9_priority_front [LinearOrder α] (l : List α) :
    PriorityQueueWrapper_front l = pq_top l ∧
    (∀ m, PriorityQueueWrapper_front l = some m →
      m ∈ l ∧ ∀ y ∈ l, y ≤ m) ∧
    (l ≠ [] → ∃ m, (m ∈ l ∧ ∀ y ∈ l, y ≤ m) ∧
      try_pop_impl (prioOps α) l = (Except.ok m, l.erase m)) := by
  refine ⟨rfl, ?_, ?_⟩
  · intro m hm
    exact ⟨pq_top_mem l m hm, pq_top_ge l m hm⟩
  · intro h
    obtain ⟨v, hv, htp⟩ :=
      try_pop_impl_ok_of_ne (prioOps α) (lawful_prio α) l h
    have hvtop : pq_top l = some v := hv
    refine ⟨v, ⟨pq_top_mem l v hvtop, pq_top_ge l v hvtop⟩, ?_⟩
    rw [htp]
    have hpop : (prioOps α).popS l = l.erase v := by
      simp [prioOps, pq_pop, hvtop]
    rw [hpop]

/-- Witness for C9: on contents 3 :: 9 :: 4 :: nil the priority try_pop
removes and returns a maximal element. -/
theorem C9_priority_front_witness :
    ([3, 9, 4] ≠ ([] : List Nat)) ∧
    (∃ m, (m ∈ [3, 9, 4] ∧ ∀ y ∈ [3, 9, 4], y ≤ m) ∧
      try_pop_impl (prioOps Nat) [3, 9, 4]
        = (Except.ok m, [3, 9, 4].erase m)) :=
  ⟨by simp, (C9_priority_front [3, 9, 4]).2.2 (by simp)⟩

/-- C10: error atomicity of try_pop: whenever the public try_pop raises
EmptyQueue, both the storage contents and the synchronization state (in
any state where the register agrees with the mutex, which holds in every
reachable state) are exactly as they were before the call. -/
theorem C10_error_atomicity (ops : StorageOps α) (t : Nat)
    (s s2 : QueueState α) (e : QueueError)
    (hinv : s.lockSt.owningThread = s.lockSt.mutexHolder)
    (h : try_pop_full ops t s = some (Except.error e, s2)) :
    s2 = s := by
  rcases s with ⟨⟨mh, ow⟩, st⟩
  simp only at hinv
  simp only [try_pop_full, public_op] at h
  rcases htp : try_pop_impl ops st with ⟨r1, q2⟩
  rw [htp] at h
  split at h
  · have h2 : some (r1, (⟨⟨mh, ow⟩, q2⟩ : QueueState α))
        = some (Except.error e, s2) := h
    have h3 := Option.some.inj h2
    have hr : r1 = Except.error e := congrArg Prod.fst h3
    have hs : (⟨⟨mh, ow⟩, q2⟩ : QueueState α) = s2 := congrArg Prod.snd h3
    have hq : q2 = st := try_pop_impl_err_elim ops st q2 e (hr ▸ htp)
    rw [← hs, hq]
  · cases hls : lockStep ⟨mh, ow⟩ (LockEvent.lockE t) with
    | none => rw [hls] at h; cases h
    | some ls2 =>
      rw [hls] at h
      have hn : mh = none ∧ ls2 = ⟨some t, some t⟩ := by
        simp only [lockStep] at hls
        split at hls
        · rename_i hn0; cases hls; exact ⟨hn0, rfl⟩
        · cases hls
      obtain ⟨hmh, hls2⟩ := hn
      subst hls2
      subst hmh
      subst hinv
      have h2 : (match lockStep ⟨some t, some t⟩ (LockEvent.unlockE t) with
          | some ls3 =>
            some ((r1, q2).1, (⟨ls3, (r1, q2).2⟩ : QueueState α))
          | none => none) = some (Except.error e, s2) := h
      have hunlock : lockStep ⟨some t, some t⟩ (LockEvent.unlockE t)
          = some ⟨none, none⟩ := by simp [lockStep]
      rw [hunlock] at h2
      have h3 := Option.some.inj h2
      have hr : r1 = Except.error e := congrArg Prod.fst h3
      have hs : (⟨⟨none, none⟩, q2⟩ : QueueState α) = s2 :=
        congrArg Prod.snd h3
      have hq : q2 = st := try_pop_impl_err_elim ops st q2 e (hr ▸ htp)
      rw [← hs, hq]

/-- Witness for C10: try_pop by thread 0 on an empty, unlocked queue
raises EmptyQueue and returns the state unchanged. -/
theorem C10_error_atomicity_witness :
    try_pop_full (fifoOps Nat) 0 ⟨initLock, []⟩
      = some (Except.error QueueError.emptyQueue, ⟨initLock, []⟩) ∧
    (⟨initLock, []⟩ : QueueState Nat) = ⟨initLock, []⟩ :=
  ⟨rfl, C10_error_atomicity (fifoOps Nat) 0 ⟨initLock, []⟩ ⟨initLock, []⟩
    QueueError.emptyQueue rfl rfl⟩

end BlockingQueue
